import Mathlib

/-!
Verification development for the TRIQS density-density mean-field (Hartree) solver
(`hartree_solver.py`): a shallow embedding of the data model and operations,
together with theorems settling the specification claims.

Conventions of the embedding:
* Orbital-space matrices become `Matrix (Fin n) (Fin n) ℂ`; a dispersion (one orbital
  block per momentum point) becomes `Fin nk → Matrix (Fin n) (Fin n) ℂ`, with
  `nk = len(e_k.mesh)`.
* `numpy.linalg.eigh` / `eigvalsh` are external library collaborators; they are
  modelled by an abstract oracle `Eigh n` passed to every function that calls them,
  with the contract `EighValid` (unitary eigenvectors, spectral reconstruction)
  assumed as a hypothesis exactly where a theorem needs it.
* `scipy.optimize.brentq` is an external collaborator; it is modelled after the
  description the spec gives of the bracketed root-finder contract (error on no sign change,
  otherwise a root in the bracket).
* Fallible code (assertions, raised errors) returns `Except String`.
-/

open scoped ComplexOrder
open scoped Matrix

namespace HartreeMF

/-- Square complex orbital-space matrix of dimension `n` (one `target_shape` block). -/
abbrev Mat (n : ℕ) := Matrix (Fin n) (Fin n) ℂ

/-- The Fermi function `lambda e, beta: 1./(np.exp(beta * e) + 1)` appearing (as a
local lambda) in `rho_mf`, `__update_chemical_potential`, `__update_density_matrix`
and the `chi0_op` family. -/
noncomputable def fermi (e beta : ℝ) : ℝ := 1 / (Real.exp (beta * e) + 1)

/-- An eigendecomposition oracle standing for `numpy.linalg.eigh`: for a matrix it
returns a vector of eigenvalues and the matrix of eigenvectors (columns indexed by
the second index, as in the einsum pattern `kab,kb,kcb->ac`). -/
def Eigh (n : ℕ) := Mat n → (Fin n → ℝ) × Mat n

/-- The `numpy.linalg.eigh` contract for a Hermitian input `E`: the returned `V` is
unitary and `E = V * diag(e) * Vᴴ`.  A matrix admits such a decomposition iff it is
Hermitian. -/
def EighValid {n : ℕ} (E : Mat n) (p : (Fin n → ℝ) × Mat n) : Prop :=
  p.2 ∈ Matrix.unitaryGroup (Fin n) ℂ ∧
  E = p.2 * Matrix.diagonal (fun b => (p.1 b : ℂ)) * (p.2)ᴴ

/-- Reconstruction `V · diag(fermi(e, beta)) · Vᴴ` of a single k-point density-matrix
block from an eigendecomposition, i.e. the einsum pattern `kab,kb,kcb->kac` applied to
`U, fermi(e, beta), conj(U)` at one `k`. -/
noncomputable def fermiBlock {n : ℕ} (beta : ℝ) (p : (Fin n → ℝ) × Mat n) : Mat n :=
  p.2 * Matrix.diagonal (fun b => (fermi (p.1 b) beta : ℂ)) * (p.2)ᴴ

/-- Embedding of `rho_mf(e_k, beta, M, mu)` (source lines 64-82): builds `E = e_k.data + M - mu*I`
per k-point, eigendecomposes each block, applies the Fermi function to the
eigenvalues, reconstructs `V·diag(f)·Vᴴ`, sums over k and divides by `len(e_k.mesh)`.
The python defaults are `M = 0`, `mu = 0.`. -/
noncomputable def rho_mf {n nk : ℕ} (eigh : Eigh n) (e_k : Fin nk → Mat n)
    (beta : ℝ) (M : Mat n) (mu : ℝ) : Mat n :=
  ((nk : ℂ))⁻¹ • ∑ k : Fin nk, fermiBlock beta (eigh (e_k k + M - (mu : ℂ) • 1))

/-- Embedding of `extract_dens_dens(chi_abcd)` (source lines 227-233):
`chi_ab[i1, i2] = chi_abcd[i1, i1, i2, i2]`. -/
def extract_dens_dens {n : ℕ} (chi_abcd : Fin n → Fin n → Fin n → Fin n → ℂ) : Mat n :=
  Matrix.of fun i1 i2 => chi_abcd i1 i1 i2 i2

/-- Mutable state of `DensityDensityMeanFieldSolver` (its `self.*` attributes). -/
structure SolverState (n nk : ℕ) where
  e_k : Fin nk → Mat n
  e_k_MF : Fin nk → Mat n
  U_ab : Mat n
  M : Mat n
  mu : ℝ
  beta : ℝ
  N_tot : ℝ
  mu_min : ℝ
  mu_max : ℝ
  rho : Mat n

/-- Embedding of `DensityDensityMeanFieldSolver.__init__(e_k, H_int, gf_struct, mu_max=10, mu_min=-10.)`
(source lines 239-277).  The interaction tensor `U_abcd = get_rpa_tensor(H_int, ...)`
is produced by the external library, so the tensor itself is the parameter here;
`U_ab = extract_dens_dens(U_abcd)`, `mu = 0.`, `beta = -1.`, and `e_k_MF` starts as a
copy of `e_k`.  `M`, `N_tot` and `rho` are not assigned by `__init__` (they are first
assigned inside `solve_setup` / the update methods); the embedding initialises those
fields to `0`. -/
noncomputable def solverInit {n nk : ℕ} (e_k : Fin nk → Mat n)
    (U_abcd : Fin n → Fin n → Fin n → Fin n → ℂ)
    (mu_max : ℝ := 10) (mu_min : ℝ := -10) : SolverState n nk :=
  { e_k := e_k
    e_k_MF := e_k
    U_ab := extract_dens_dens U_abcd
    M := 0
    mu := 0
    beta := -1
    N_tot := 0
    mu_min := mu_min
    mu_max := mu_max
    rho := 0 }

/-- Embedding of `__update_mean_field(rho_diag)` (source lines 280-281):
`self.M = np.diag(np.dot(self.U_ab, rho_diag))`. -/
noncomputable def updateMeanField {n nk : ℕ} (st : SolverState n nk)
    (rho_diag : Fin n → ℝ) : SolverState n nk :=
  { st with M := Matrix.diagonal (st.U_ab.mulVec fun b => (rho_diag b : ℂ)) }

/-- Embedding of `__update_mean_field_dispersion()` (source lines 284-285):
`self.e_k_MF.data[:] = self.e_k.data + self.M[None, ...]` (same `M` at every k). -/
def updateMeanFieldDispersion {n nk : ℕ} (st : SolverState n nk) : SolverState n nk :=
  { st with e_k_MF := fun k => st.e_k k + st.M }

/-- Error message raised by `scipy.optimize.brentq` when the bracket shows no sign
change. -/
def brentqSignError : String := "f(a) and f(b) must have different signs"

/-- Error outcome of `scipy.optimize.brentq` when it cannot produce a root. -/
def brentqNoRootError : String := "brentq: no root found in bracket"

open Classical in
/-- Model of the external collaborator `scipy.optimize.brentq(f, a, b)`, following
the root-finder contract of the spec: it reports a fatal error when `f(a)` and `f(b)` have
the same (strict) sign — the bracket contains no guaranteed root — and otherwise
returns a root of `f` inside `[a, b]` (idealising the tolerance of the root-finder to an
exact root, which exists by the intermediate value theorem whenever `f` is
continuous). -/
noncomputable def brentq (f : ℝ → ℝ) (a b : ℝ) : Except String ℝ :=
  if 0 < f a * f b then .error brentqSignError
  else if h : ∃ x ∈ Set.Icc a b, f x = 0 then .ok h.choose
  else .error brentqNoRootError

/-- The closure `target_function(mu)` of `__update_chemical_potential` (source lines
298-300): `np.sum(fermi(e - mu, beta)) / n_k - N_tot`, where `e` is the array of
eigenvalues of all mean-field dispersion blocks. -/
noncomputable def chemicalPotentialTarget {n nk : ℕ} (e : Fin nk → Fin n → ℝ)
    (beta N_tot : ℝ) (mu : ℝ) : ℝ :=
  (∑ k : Fin nk, ∑ b : Fin n, fermi (e k b - mu) beta) / (nk : ℝ) - N_tot

/-- Embedding of `__update_chemical_potential(beta, N_tot, mu0)` (source lines 288-304):
`e = np.linalg.eigvalsh(self.e_k_MF.data)`, then
`mu = brentq(target_function, self.mu_min, self.mu_max)` and `self.mu = mu`.
(The `mu0` argument of the python method is dead: it is defaulted from `self.mu`
but never used, since `brentq` takes no initial guess.) -/
noncomputable def updateChemicalPotential {n nk : ℕ} (eigh : Eigh n)
    (st : SolverState n nk) (beta N_tot : ℝ) : Except String (SolverState n nk) :=
  (brentq (chemicalPotentialTarget (fun k => (eigh (st.e_k_MF k)).1) beta N_tot)
      st.mu_min st.mu_max).map
    fun mu => { st with mu := mu }

/-- Embedding of `__update_density_matrix(beta)` (source lines 307-319): eigendecompose
`self.e_k_MF.data`, shift the eigenvalues by `-self.mu`, reconstruct
`rho = einsum(kab,kb,kcb->ac, V, fermi(e, beta), conj(V)) / len(mesh)`, store it in
`self.rho`, and return `np.diag(self.rho).real`. -/
noncomputable def updateDensityMatrix {n nk : ℕ} (eigh : Eigh n)
    (st : SolverState n nk) (beta : ℝ) : SolverState n nk × (Fin n → ℝ) :=
  let rho : Mat n :=
    ((nk : ℂ))⁻¹ • ∑ k : Fin nk,
      (fun p => p.2 * Matrix.diagonal (fun b => (fermi (p.1 b - st.mu) beta : ℂ)) * (p.2)ᴴ)
        (eigh (st.e_k_MF k))
  ({ st with rho := rho }, fun a => (rho a a).re)

/-- Embedding of `density_matrix_step(rho_diag)` (source lines 322-329): the composite iteration
step {update mean field from `rho_diag`; update mean-field dispersion; resolve the
chemical potential; recompute the density matrix}, returning the new `rho_diag`.
A `brentq` failure inside the chemical-potential update propagates. -/
noncomputable def densityMatrixStep {n nk : ℕ} (eigh : Eigh n) (st : SolverState n nk)
    (rho_diag : Fin n → ℝ) : Except String (SolverState n nk × (Fin n → ℝ)) :=
  let st2 := updateMeanFieldDispersion (updateMeanField st rho_diag)
  (updateChemicalPotential eigh st2 st2.beta st2.N_tot).map
    fun st3 => updateDensityMatrix eigh st3 st3.beta

/-- Embedding of `solve_setup(beta, N_tot, M0=None, mu0=None)` (source lines 332-350): store
`beta` and `N_tot`; if `mu0` is `None` solve the chemical potential once (with the
current, pre-mean-field dispersion), otherwise set `self.mu = mu0`; set
`self.M = M0` (zero if `None`); rebuild the mean-field dispersion; solve the
chemical potential again; and return the initial `rho_diag`. -/
noncomputable def solveSetup {n nk : ℕ} (eigh : Eigh n) (st0 : SolverState n nk)
    (beta N_tot : ℝ) (M0 : Option (Mat n)) (mu0 : Option ℝ) :
    Except String (SolverState n nk × (Fin n → ℝ)) := do
  let st1 : SolverState n nk := { st0 with beta := beta, N_tot := N_tot }
  let st2 ← match mu0 with
    | none => updateChemicalPotential eigh st1 beta N_tot
    | some m => pure { st1 with mu := m }
  let st3 := updateMeanFieldDispersion { st2 with M := M0.getD 0 }
  let st4 ← updateChemicalPotential eigh st3 beta N_tot
  pure (updateDensityMatrix eigh st4 beta)

/-- Embedding of `np.linalg.norm` of a real vector (the default 2-norm). -/
noncomputable def l2norm {n : ℕ} (v : Fin n → ℝ) : ℝ :=
  Real.sqrt (∑ i : Fin n, v i ^ 2)

/-- The convergence measure of `solve_iter` (source line 391):
`drho = np.linalg.norm(rho_diag_old - rho_diag_new) / np.linalg.norm(rho_diag_old)`. -/
noncomputable def relChange {n : ℕ} (rho_old rho_new : Fin n → ℝ) : ℝ :=
  l2norm (rho_old - rho_new) / l2norm rho_old

/-- The linear mixing of `solve_iter` (source line 399):
`rho_diag = (1. - mixing) * rho_diag_old + mixing * rho_diag_new`. -/
def mixRho {n : ℕ} (mixing : ℝ) (rho_old rho_new : Fin n → ℝ) : Fin n → ℝ :=
  fun i => (1 - mixing) * rho_old i + mixing * rho_new i

/-- The `for idx in xrange(self.nitermax)` loop of `solve_iter` (source lines
384-399), parametric in the step function (which is `density_matrix_step` in the
source; an `Except.error` of the step propagates, as a python exception would).
Each pass appends the current `rho_diag` to `rho_vec`, runs one composite step,
breaks if `drho < tol`, and otherwise continues from the linear mixture. -/
noncomputable def solveIterLoop {S : Type} {n : ℕ}
    (step : S → (Fin n → ℝ) → Except String (S × (Fin n → ℝ)))
    (mixing tol : ℝ) :
    ℕ → S → (Fin n → ℝ) → List (Fin n → ℝ) →
      Except String (List (Fin n → ℝ) × S)
  | 0, s, _, acc => .ok (acc, s)
  | fuel + 1, s, rho_diag, acc =>
    match step s rho_diag with
    | .error e => .error e
    | .ok p =>
      if relChange rho_diag p.2 < tol then .ok (acc ++ [rho_diag], p.1)
      else
        solveIterLoop step mixing tol fuel p.1 (mixRho mixing rho_diag p.2)
          (acc ++ [rho_diag])

/-- Message of the `assert` statements guarding `mixing` in `solve_iter`. -/
def mixingAssertError : String := "AssertionError: mixing out of range"

/-- Default of the `tol` parameter of `solve_iter` (source line 353). -/
noncomputable def solveIterTolDefault : ℝ := 1e-9

/-- Embedding of `solve_iter(beta, N_tot, M0, mu0, nitermax=100, mixing=0.5, tol=1e-9)` (source
lines 353-403): assert `0 <= mixing <= 1`, run `solve_setup`, then iterate the
composite step up to `nitermax` times with linear mixing, collecting the trajectory
`rho_vec` of `rho_diag` iterates, which is returned (the final solver state is
mutated in place in python; the embedding returns it alongside). -/
noncomputable def solveIter {n nk : ℕ} (eigh : Eigh n) (st0 : SolverState n nk)
    (beta N_tot : ℝ) (M0 : Option (Mat n)) (mu0 : Option ℝ)
    (nitermax : ℕ) (mixing tol : ℝ) :
    Except String (List (Fin n → ℝ) × SolverState n nk) :=
  if 0 ≤ mixing ∧ mixing ≤ 1 then do
    let p ← solveSetup eigh st0 beta N_tot M0 mu0
    solveIterLoop (densityMatrixStep eigh) mixing tol nitermax p.1 p.2 []
  else .error mixingAssertError

/-- The k-averaged density matrix built from a dispersion `E` by eigendecomposition
and Fermi occupation — the quantity the spec writes as `ρ` in its description of the
response calculators (and computed k-resolved inside `chi0_op`, source lines
108-120, before the difference quotient is averaged). -/
noncomputable def rhoAvg {n nk : ℕ} (eigh : Eigh n) (E : Fin nk → Mat n)
    (beta : ℝ) : Mat n :=
  ((nk : ℂ))⁻¹ • ∑ k : Fin nk, fermiBlock beta (eigh (E k))

/-- Embedding of `chi0_op(e_k, beta, op, eps)` (source lines 103-124): eigendecompose
`e_k ± eps*op` at every k, rebuild the two Fermi density matrices, take
`drho = (rho_p - rho_m) / (2*eps)`, average over k, and return `chi0 = -drho`. -/
noncomputable def chi0_op {n nk : ℕ} (eigh : Eigh n) (e_k : Fin nk → Mat n)
    (beta : ℝ) (op : Mat n) (eps : ℝ) : Mat n :=
  -(((nk : ℂ))⁻¹ • ∑ k : Fin nk,
      (((2 * eps : ℝ) : ℂ))⁻¹ •
        (fermiBlock beta (eigh (e_k k + (eps : ℂ) • op))
          - fermiBlock beta (eigh (e_k k - (eps : ℂ) • op))))

/-- Spec-side definition for claim C8, modelled from the words of the spec: "perturb the
mean-field Hamiltonian by ±ε·F ..., recompute ρ via eigendecomposition, and take the
symmetric difference quotient (ρ(+ε)−ρ(−ε))/(2ε), averaged over k". -/
noncomputable def symmDiffQuotient {n nk : ℕ} (eigh : Eigh n) (e_k : Fin nk → Mat n)
    (beta : ℝ) (op : Mat n) (eps : ℝ) : Mat n :=
  (((2 * eps : ℝ) : ℂ))⁻¹ •
    (rhoAvg eigh (fun k => e_k k + (eps : ℂ) • op) beta
      - rhoAvg eigh (fun k => e_k k - (eps : ℂ) • op) beta)

/-- Embedding of `chi0_mat(e_k, beta, eps)` (source lines 136-150): for each orbital index `idx`
build the diagonal projector `F` (`F[idx, idx] = 1`), compute `chi0_F = chi0_op(...)`
and store its diagonal as row `idx`: `chi0[a, b] = chi0_op(e_k, beta, F_a, eps)[b, b]`. -/
noncomputable def chi0_mat {n nk : ℕ} (eigh : Eigh n) (e_k : Fin nk → Mat n)
    (beta eps : ℝ) : Mat n :=
  Matrix.of fun a b => chi0_op eigh e_k beta (Matrix.stdBasisMatrix a a 1) eps b b

/-- State built by `BaseResponse.__init__(solver, eps=1e-9)` (source lines 448-462):
keeps the solver, the finite-difference step `eps`, `beta`, and the `mu`-shifted
mean-field dispersion `e_k = solver.e_k_MF - mu * I`. -/
structure BaseResponseState (n nk : ℕ) where
  solver : SolverState n nk
  eps : ℝ
  beta : ℝ
  e_k : Fin nk → Mat n

/-- Default of the `eps` parameter of `BaseResponse.__init__` (source line 448). -/
noncomputable def baseResponseEpsDefault : ℝ := 1e-9

/-- Embedding of `BaseResponse.__init__(solver, eps)` (source lines 448-462). -/
noncomputable def baseResponseInit {n nk : ℕ} (solver : SolverState n nk)
    (eps : ℝ) : BaseResponseState n nk :=
  { solver := solver
    eps := eps
    beta := solver.beta
    e_k := fun k => solver.e_k_MF k - (solver.mu : ℂ) • 1 }

/-- State built by `HartreeResponse.__init__` (source lines 529-539). -/
structure HartreeResponseState (n nk : ℕ) where
  base : BaseResponseState n nk
  chi0_ab : Mat n
  chi_ab : Mat n

/-- Embedding of `HartreeResponse.__init__(hartree_solver, eps=1e-9)` (source lines 529-539).
The python source calls `super(HartreeResponse, self).__init__(hartree_solver)`,
NOT forwarding its `eps` argument, so the base state is built with the
`BaseResponse` default `eps = 1e-9`; then
`chi0_ab = chi0_mat(self.e_k, self.beta, eps=self.eps)` and
`chi_ab = chi0_ab * inv(I - U_ab * chi0_ab)`. -/
noncomputable def hartreeResponseInit {n nk : ℕ} (eigh : Eigh n)
    (solver : SolverState n nk) (eps : ℝ) : HartreeResponseState n nk :=
  let base := baseResponseInit solver baseResponseEpsDefault
  let chi0_ab := chi0_mat eigh base.e_k base.beta base.eps
  { base := base
    chi0_ab := chi0_ab
    chi_ab := chi0_ab * (1 - base.solver.U_ab * chi0_ab)⁻¹ }

/-- The probe-operator check `HartreeResponse.__check_op` (source lines 541-546):
the shape assertion holds by the types of the embedding, and
`np.testing.assert_almost_equal(op - np.diag(np.diag(op)), 0)` checks, to the numpy
default 7 decimals, that every entry of `op` minus its diagonal part has absolute
value `< 1.5 * 10^(-7)`. -/
def CheckOp {n : ℕ} (op : Mat n) : Prop :=
  ∀ a b : Fin n, Complex.abs ((op - Matrix.diagonal fun i => op i i) a b) < 1.5e-7

/-- Message of a failed `__check_op` assertion. -/
def checkOpError : String := "AssertionError: operator not diagonal"

open Classical in
/-- Embedding of `HartreeResponse.bare_response(op1, op2)` (source lines 548-555): check both
probe operators, then return `einsum(aa,ab,bb->, op1, chi0_ab, op2)`. -/
noncomputable def bareResponse {n nk : ℕ} (st : HartreeResponseState n nk)
    (op1 op2 : Mat n) : Except String ℂ :=
  if CheckOp op1 ∧ CheckOp op2 then
    .ok (∑ a : Fin n, ∑ b : Fin n, op1 a a * st.chi0_ab a b * op2 b b)
  else .error checkOpError

open Classical in
/-- Embedding of `HartreeResponse.response(op1, op2)` (source lines 557-564): check both probe
operators, then return `einsum(aa,ab,bb->, op1, chi_ab, op2)`. -/
noncomputable def response {n nk : ℕ} (st : HartreeResponseState n nk)
    (op1 op2 : Mat n) : Except String ℂ :=
  if CheckOp op1 ∧ CheckOp op2 then
    .ok (∑ a : Fin n, ∑ b : Fin n, op1 a a * st.chi_ab a b * op2 b b)
  else .error checkOpError

/-!
## Name-resolution model for the dead code paths (claim C9)

`chi0_op_accurate`, `local_density_matrix`, `BaseResponse._compute_drho_dop`,
`BaseResponse._compute_R_ab` and `BaseResponse._compute_R_abcd` reference names that
are not bound at execution time.  We model the python name resolution for the
non-local names these bodies look up: a lookup succeeds iff the name is a module
global (an import or a module-level definition of `hartree_solver.py`) or a python
builtin; the first failing lookup raises `NameError`.  The per-function lists below
record, in execution order, every global/builtin name lookup the body performs up to
and including its first unresolved name (local variables and attribute accesses do
not perform global lookups and are omitted).
-/

/-- Names bound at module level in `hartree_solver.py`: the imports (lines 10-21)
and the module-level `def`/`class` statements. -/
def moduleGlobals : List String :=
  ["itertools", "np", "fsolve", "brentq", "get_rpa_tensor",
   "fundamental_operators_from_gf_struct",
   "fermi_distribution_function", "local_density_matrix_g_wk", "chi0_op_accurate",
   "rho_mf", "fix_chemical_potential", "chi0_op", "chi0_op_op", "chi0_mat",
   "R_tensor", "chi0_tensor", "local_density_matrix", "tr_op_chi_wk_op",
   "U_matrix_kanamori_dens_dens", "extract_dens_dens",
   "DensityDensityMeanFieldSolver", "BaseResponse", "HartreeResponse",
   "HartreeFockResponse"]

/-- Python builtins referenced by the dead code paths. -/
def pythonBuiltins : List String := ["len", "range", "print"]

/-- The environment in which a module-level function body resolves non-local names. -/
def resolutionEnv : List String := moduleGlobals ++ pythonBuiltins

/-- First name of `refs` (the non-local lookups of a function body in execution order)
that fails to resolve: the name whose lookup raises `NameError`. -/
def firstUnresolvedName (refs env : List String) : Option String :=
  refs.find? fun s => !(env.contains s)


/-- The unbound name `kmesh`. -/
def nameKmesh : String := "kmesh"

/-- The unbound name `shape`. -/
def nameShape : String := "shape"

/-- The unbound name `e_k` (the method scope only binds `self.e_k`). -/
def nameEk : String := "e_k"

/-- The unbound name `scale` (referenced by `_compute_R_abcd`, lines 507-508). -/
def nameScale : String := "scale"

/-- The nonexistent method name `_drho_dop` (referenced on line 494). -/
def nameDrhoDop : String := "_drho_dop"

/-- Non-local name lookups of `chi0_op_accurate` (source lines 46-61) in execution
order: `np.zeros` and the `dtype=np.complex` keyword resolve `np` twice; the loop
header `for k in kmesh:` then looks up `kmesh`. -/
def refs_chi0_op_accurate : List String := ["np", "np", "kmesh"]

/-- Non-local name lookups of `local_density_matrix` (source lines 182-191):
`np.zeros(shape, dtype=np.complex)` resolves `np` twice (`shape` is a local here),
then the loop header `for k in kmesh:` looks up `kmesh`. -/
def refs_local_density_matrix : List String := ["np", "np", "kmesh"]

/-- Non-local name lookups of `BaseResponse._compute_drho_dop` (source lines
465-483): two `np.linalg.eigh` calls, two einsum lines resolving `np` twice each
(`np.einsum`, `np.conj`), then in `np.sum(drho, axis=0) / len(e_k.mesh)` the lookups
`np`, `len` and finally the unbound `e_k` (the method only has `self.e_k`). -/
def refs_compute_drho_dop : List String :=
  ["np", "np", "np", "np", "np", "np", "np", "len", "e_k"]

/-- Non-local name lookups of `BaseResponse._compute_R_ab` (source lines 486-497):
`np.zeros(self.shape_ab, dtype=np.complex)` resolves `np` twice, the loop header
resolves `range`, then `F_a = np.zeros(shape)` resolves `np` and the unbound
`shape`.  (The nonexistent method `self._drho_dop` on line 494 is never reached.) -/
def refs_compute_R_ab : List String := ["np", "np", "range", "np", "shape"]

/-- Non-local name lookups of `BaseResponse._compute_R_abcd` (source lines 500-513):
`np.zeros(self.shape_abcd, dtype=np.complex)` resolves `np` twice, the loop header
resolves `itertools` and `range`, then `F_ab = np.zeros(shape, dtype=np.complex)`
resolves `np` and the unbound `shape` (so the equally unbound `scale` on lines
507-508 is never reached). -/
def refs_compute_R_abcd : List String := ["np", "np", "itertools", "range", "np", "shape"]

/-- The method names defined on the class `BaseResponse` (source lines 446-523). -/
def baseResponseMethods : List String :=
  ["__init__", "_compute_drho_dop", "_compute_R_ab", "_compute_R_abcd",
   "_compute_chi0_abcd"]

/-- The hypothesis scenario of claim C4, as a predicate on a run of the `solve_iter`
loop: starting from state `s` and iterate `rho_diag`, every one of the next `fuel`
composite steps succeeds and the convergence test `drho < tol` never fires (so the
loop would take all `fuel` passes). -/
def RunsFullWithoutConvergence {S : Type} {n : ℕ}
    (step : S → (Fin n → ℝ) → Except String (S × (Fin n → ℝ)))
    (mixing tol : ℝ) : ℕ → S → (Fin n → ℝ) → Prop
  | 0, _, _ => True
  | fuel + 1, s, rho_diag =>
    ∃ p, step s rho_diag = .ok p ∧ ¬ relChange rho_diag p.2 < tol ∧
      RunsFullWithoutConvergence step mixing tol fuel p.1 (mixRho mixing rho_diag p.2)

/-!
## Concrete instances used by witnesses and counterexamples
-/

/-- A concrete eigendecomposition oracle for 1×1 matrices: the eigenvalue is the
real part of the single entry and the eigenvector matrix is the identity (a valid
`numpy.linalg.eigh` result for every 1×1 Hermitian matrix). -/
noncomputable def eighTriv : Eigh 1 := fun E => (fun _ => (E 0 0).re, 1)

/-- A placeholder eigendecomposition oracle for 2×2 matrices (used only where a
theorem does not constrain the oracle). -/
noncomputable def eighTriv2 : Eigh 2 := fun _ => (fun _ => 0, 1)

/-- The identically-zero one-orbital dispersion on a one-point mesh. -/
def dispZero : Fin 1 → Mat 1 := fun _ => 0

/-- Concrete solver on the zero dispersion with vanishing interaction tensor. -/
noncomputable def solver0 : SolverState 1 1 := solverInit dispZero fun _ _ _ _ => 0

/-- Concrete two-orbital solver with vanishing interaction tensor. -/
noncomputable def solver2 : SolverState 2 1 := solverInit (fun _ => 0) fun _ _ _ _ => 0

/-- Concrete `HartreeResponse` state over `solver2`. -/
noncomputable def respState2 : HartreeResponseState 2 1 :=
  hartreeResponseInit eighTriv2 solver2 1e-9

/-- A probe operator that is NOT diagonal but whose off-diagonal entry `1e-8` is
below the numpy 7-decimal almost-equality tolerance `1.5e-7`. -/
noncomputable def opBad : Mat 2 :=
  Matrix.of ![![(1 : ℂ), ((1e-8 : ℝ) : ℂ)], ![0, 1]]


/-- The solver state reached inside `solve_setup(1, 1/2, None, 0.)` on `solver0`
just before the second chemical-potential update. -/
noncomputable def stW3 : SolverState 1 1 :=
  updateMeanFieldDispersion
    { { { solver0 with beta := 1, N_tot := 1/2 } with mu := 0 } with
      M := (none : Option (Mat 1)).getD 0 }


/-- The properties claim C2 asserts of a density matrix: Hermitian, all eigenvalues
inside `[0, 1]`, and a real trace between `0` and the number of orbitals. -/
def DensityMatrixProps {n : ℕ} (rho : Mat n) : Prop :=
  rho.IsHermitian
  ∧ (∃ h : rho.IsHermitian, ∀ i, h.eigenvalues i ∈ Set.Icc (0 : ℝ) 1)
  ∧ rho.trace.im = 0 ∧ rho.trace.re ∈ Set.Icc (0 : ℝ) (n : ℝ)

/-!
## Helper lemmas
-/

/-- Unfolding of one pass of the `solve_iter` loop. -/
theorem solveIterLoop_succ_eq {S : Type} {n : ℕ}
    (step : S → (Fin n → ℝ) → Except String (S × (Fin n → ℝ)))
    (mixing tol : ℝ) (fuel : ℕ) (s : S) (rho_diag : Fin n → ℝ)
    (acc : List (Fin n → ℝ)) :
    solveIterLoop step mixing tol (fuel + 1) s rho_diag acc =
      match step s rho_diag with
      | .error e => .error e
      | .ok p =>
        if relChange rho_diag p.2 < tol then .ok (acc ++ [rho_diag], p.1)
        else
          solveIterLoop step mixing tol fuel p.1 (mixRho mixing rho_diag p.2)
            (acc ++ [rho_diag]) := rfl

/-- The trajectory returned by the `solve_iter` loop has at most `fuel` entries
beyond the accumulator it started from. -/
theorem solveIterLoop_ok_length {S : Type} {n : ℕ}
    (step : S → (Fin n → ℝ) → Except String (S × (Fin n → ℝ)))
    (mixing tol : ℝ) :
    ∀ (fuel : ℕ) (s : S) (rho_diag : Fin n → ℝ) (acc traj : List (Fin n → ℝ))
      (s' : S),
      solveIterLoop step mixing tol fuel s rho_diag acc = .ok (traj, s') →
      traj.length ≤ acc.length + fuel := by
  intro fuel
  induction fuel with
  | zero =>
    intro s rho_diag acc traj s' h
    simp only [solveIterLoop, Except.ok.injEq, Prod.mk.injEq] at h
    obtain ⟨rfl, rfl⟩ := h
    simp
  | succ m ih =>
    intro s rho_diag acc traj s' h
    rw [solveIterLoop_succ_eq] at h
    cases hstep : step s rho_diag with
    | error e => rw [hstep] at h; exact absurd h (by simp)
    | ok p =>
      rw [hstep] at h
      dsimp only [] at h
      by_cases hc : relChange rho_diag p.2 < tol
      · rw [if_pos hc] at h
        simp only [Except.ok.injEq, Prod.mk.injEq] at h
        obtain ⟨rfl, rfl⟩ := h
        simp
      · rw [if_neg hc] at h
        have := ih p.1 (mixRho mixing rho_diag p.2) (acc ++ [rho_diag]) traj s' h
        simp only [List.length_append, List.length_singleton] at this
        omega

/-- If every step of a run succeeds and never converges, the loop consumes all its
fuel and returns a normally-accumulated trajectory. -/
theorem solveIterLoop_of_runsFull {S : Type} {n : ℕ}
    (step : S → (Fin n → ℝ) → Except String (S × (Fin n → ℝ)))
    (mixing tol : ℝ) :
    ∀ (fuel : ℕ) (s : S) (rho_diag : Fin n → ℝ) (acc : List (Fin n → ℝ)),
      RunsFullWithoutConvergence step mixing tol fuel s rho_diag →
      ∃ traj s', solveIterLoop step mixing tol fuel s rho_diag acc = .ok (traj, s')
        ∧ traj.length = acc.length + fuel := by
  intro fuel
  induction fuel with
  | zero =>
    intro s rho_diag acc _
    exact ⟨acc, s, rfl, by simp⟩
  | succ m ih =>
    intro s rho_diag acc hrun
    obtain ⟨p, hstep, hnc, hrest⟩ := hrun
    obtain ⟨traj, s', hloop, hlen⟩ :=
      ih p.1 (mixRho mixing rho_diag p.2) (acc ++ [rho_diag]) hrest
    refine ⟨traj, s', ?_, ?_⟩
    · rw [solveIterLoop_succ_eq, hstep]
      dsimp only []
      rw [if_neg hnc]
      exact hloop
    · simp only [List.length_append, List.length_singleton] at hlen
      omega

/-- For a continuous `f`, the modelled `brentq` errors exactly when the bracket
endpoints show no sign change. -/
theorem brentq_error_iff (f : ℝ → ℝ) (a b : ℝ) (hab : a ≤ b) (hf : Continuous f) :
    (∃ e, brentq f a b = .error e) ↔ 0 < f a * f b := by
  by_cases hp : 0 < f a * f b
  · refine iff_of_true ⟨brentqSignError, ?_⟩ hp
    unfold brentq
    rw [if_pos hp]
  · have hroot : ∃ x ∈ Set.Icc a b, f x = 0 := by
      rcases mul_nonpos_iff.mp (not_lt.mp hp) with ⟨h1, h2⟩ | ⟨h1, h2⟩
      · obtain ⟨x, hx, hfx⟩ :=
          intermediate_value_Icc' hab hf.continuousOn (Set.mem_Icc.mpr ⟨h2, h1⟩)
        exact ⟨x, hx, hfx⟩
      · obtain ⟨x, hx, hfx⟩ :=
          intermediate_value_Icc hab hf.continuousOn (Set.mem_Icc.mpr ⟨h1, h2⟩)
        exact ⟨x, hx, hfx⟩
    refine iff_of_false ?_ hp
    rintro ⟨e, he⟩
    unfold brentq at he
    rw [if_neg hp, dif_pos hroot] at he
    exact absurd he (by simp)

/-- When the modelled `brentq` returns a value, that value is an exact root inside
the bracket. -/
theorem brentq_ok_root (f : ℝ → ℝ) (a b : ℝ) (mu : ℝ)
    (h : brentq f a b = .ok mu) : mu ∈ Set.Icc a b ∧ f mu = 0 := by
  unfold brentq at h
  by_cases hp : 0 < f a * f b
  · rw [if_pos hp] at h
    exact absurd h (by simp)
  · rw [if_neg hp] at h
    by_cases hroot : ∃ x ∈ Set.Icc a b, f x = 0
    · rw [dif_pos hroot] at h
      obtain ⟨hmem, hval⟩ := hroot.choose_spec
      cases h
      exact ⟨hmem, hval⟩
    · rw [dif_neg hroot] at h
      exact absurd h (by simp)

/-- The target function of the chemical-potential solver is continuous in `mu`. -/
theorem continuous_chemicalPotentialTarget {n nk : ℕ} (e : Fin nk → Fin n → ℝ)
    (beta N_tot : ℝ) : Continuous (chemicalPotentialTarget e beta N_tot) := by
  unfold chemicalPotentialTarget fermi
  refine Continuous.sub (Continuous.div_const ?_ _) continuous_const
  refine continuous_finset_sum _ fun k _ => continuous_finset_sum _ fun b _ => ?_
  refine Continuous.div continuous_const ?_ fun x => ?_
  · exact (Real.continuous_exp.comp
      (continuous_const.mul (continuous_const.sub continuous_id))).add continuous_const
  · positivity

/-!
## Claim theorems
-/

/-- C5: for every occupation vector `rho_diag`, the mean-field update sets `M` to
the diagonal matrix `diag(U_ab · rho_diag)` (entry `(a,a)` is the interaction-
weighted sum `Σ_c U_ab[a,c]·rho_diag[c]`, all off-diagonal entries vanish), and the
mean-field dispersion update sets `e_k_MF = e_k + M` entrywise at every k-point of
the mesh. -/
theorem updateMeanField_is_diag_U_rho {n nk : ℕ} (st : SolverState n nk)
    (rho_diag : Fin n → ℝ) (a b : Fin n) (k : Fin nk) :
    ((updateMeanField st rho_diag).M a b
        = if a = b then ∑ c : Fin n, st.U_ab a c * (rho_diag c : ℂ) else 0)
    ∧ (updateMeanFieldDispersion st).e_k_MF k a b = st.e_k k a b + st.M a b := by
  constructor
  · by_cases hab : a = b
    · subst hab
      simp [updateMeanField, Matrix.diagonal_apply_eq, Matrix.mulVec, Matrix.dotProduct]
    · simp [updateMeanField, Matrix.diagonal_apply_ne _ hab, hab]
  · simp [updateMeanFieldDispersion, Matrix.add_apply]

/-- C9: `chi0_op_accurate` and `local_density_matrix` fail their global lookup of
`kmesh`, `BaseResponse._compute_drho_dop` fails its lookup of `e_k`, and
`BaseResponse._compute_R_ab` / `_compute_R_abcd` fail their lookup of `shape`, in
the module environment of `hartree_solver.py` — so every call to any of the five
fails with a name-resolution error before producing a result; moreover `scale` is
also unbound in that environment and `_drho_dop` is not a method of `BaseResponse`. -/
theorem deadCode_always_raises_nameError :
    firstUnresolvedName refs_chi0_op_accurate resolutionEnv = some nameKmesh
    ∧ firstUnresolvedName refs_local_density_matrix resolutionEnv = some nameKmesh
    ∧ firstUnresolvedName refs_compute_drho_dop resolutionEnv = some nameEk
    ∧ firstUnresolvedName refs_compute_R_ab resolutionEnv = some nameShape
    ∧ firstUnresolvedName refs_compute_R_abcd resolutionEnv = some nameShape
    ∧ nameScale ∉ resolutionEnv
    ∧ nameDrhoDop ∉ baseResponseMethods := by
  decide

/-- C10: the `eps` argument of `HartreeResponse.__init__` has no effect — the
constructor does not forward it to `BaseResponse.__init__`, so two constructions
with different `eps` produce identical states (same `chi0_ab`, same `chi_ab`), the
stored `eps` is always the `BaseResponse` default `1e-9`, and `chi0_ab` is always
computed with that default step. -/
theorem hartreeResponse_eps_has_no_effect {n nk : ℕ} (eigh : Eigh n)
    (solver : SolverState n nk) (eps eps' : ℝ) :
    hartreeResponseInit eigh solver eps = hartreeResponseInit eigh solver eps'
    ∧ (hartreeResponseInit eigh solver eps).base.eps = 1e-9
    ∧ (hartreeResponseInit eigh solver eps).chi0_ab
        = chi0_mat eigh (baseResponseInit solver baseResponseEpsDefault).e_k
            solver.beta baseResponseEpsDefault
    ∧ baseResponseEpsDefault = 1e-9 :=
  ⟨rfl, rfl, rfl, rfl⟩

/-- C6: when the interaction matrix of the solver `U_ab` is zero, the RPA Dyson
correction collapses (`chi_ab = chi0_ab * (I - 0)⁻¹ = chi0_ab`) and
`HartreeResponse.response` agrees exactly with `HartreeResponse.bare_response` on
every pair of probe operators. -/
theorem response_eq_bareResponse_of_zero_U {n nk : ℕ} (eigh : Eigh n)
    (solver : SolverState n nk) (eps : ℝ) (hU : solver.U_ab = 0)
    (op1 op2 : Mat n) :
    response (hartreeResponseInit eigh solver eps) op1 op2
      = bareResponse (hartreeResponseInit eigh solver eps) op1 op2 := by
  have hchi : (hartreeResponseInit eigh solver eps).chi_ab
      = (hartreeResponseInit eigh solver eps).chi0_ab := by
    show (fun chi0_ab => chi0_ab * (1 - _ * chi0_ab)⁻¹) _ = _
    simp [hartreeResponseInit, baseResponseInit, hU]
  unfold response bareResponse
  rw [hchi]

/-- Witness for C6: at a concrete zero-interaction solver the two responses agree
on the identity probes. -/
theorem response_eq_bareResponse_of_zero_U_witness :
    response (hartreeResponseInit eighTriv solver0 1) 1 1
      = bareResponse (hartreeResponseInit eighTriv solver0 1) 1 1 :=
  response_eq_bareResponse_of_zero_U eighTriv solver0 1
    (by ext i j; simp [solver0, solverInit, extract_dens_dens]) 1 1

/-- C1: `solve_iter` control structure.  (i) The composite step it iterates is
exactly {update M from `rho_diag`; update `e_k_MF`; resolve `mu`; recompute
`rho_diag`}.  (ii) Each loop pass with fuel left records the current iterate, runs
one composite step, stops early exactly when the relative L2 change
`‖rho_old - rho_new‖/‖rho_old‖` falls below `tol`, and otherwise continues from the
linear mixture `(1 - mixing)·rho_old + mixing·rho_new`.  (iii) Any trajectory the
loop returns has at most `fuel` entries beyond its accumulator, so (iv) `solve_iter`
performs at most `nitermax` composite steps; and (v) the `tol` default is `1e-9`. -/
theorem solveIter_linear_mixing_structure :
    (∀ (n nk : ℕ) (eigh : Eigh n) (st : SolverState n nk) (rho_diag : Fin n → ℝ),
      densityMatrixStep eigh st rho_diag =
        (updateChemicalPotential eigh
            (updateMeanFieldDispersion (updateMeanField st rho_diag))
            (updateMeanFieldDispersion (updateMeanField st rho_diag)).beta
            (updateMeanFieldDispersion (updateMeanField st rho_diag)).N_tot).map
          fun st3 => updateDensityMatrix eigh st3 st3.beta)
    ∧ (∀ (S : Type) (n : ℕ)
        (step : S → (Fin n → ℝ) → Except String (S × (Fin n → ℝ)))
        (mixing tol : ℝ) (fuel : ℕ) (s : S) (rho_diag : Fin n → ℝ)
        (acc : List (Fin n → ℝ)),
        solveIterLoop step mixing tol (fuel + 1) s rho_diag acc =
          match step s rho_diag with
          | .error e => .error e
          | .ok p =>
            if relChange rho_diag p.2 < tol then .ok (acc ++ [rho_diag], p.1)
            else
              solveIterLoop step mixing tol fuel p.1 (mixRho mixing rho_diag p.2)
                (acc ++ [rho_diag]))
    ∧ (∀ (S : Type) (n : ℕ)
        (step : S → (Fin n → ℝ) → Except String (S × (Fin n → ℝ)))
        (mixing tol : ℝ) (fuel : ℕ) (s : S) (rho_diag : Fin n → ℝ)
        (acc traj : List (Fin n → ℝ)) (s' : S),
        solveIterLoop step mixing tol fuel s rho_diag acc = .ok (traj, s') →
        traj.length ≤ acc.length + fuel)
    ∧ (∀ (n nk : ℕ) (eigh : Eigh n) (st0 : SolverState n nk) (beta N_tot : ℝ)
        (M0 : Option (Mat n)) (mu0 : Option ℝ) (nitermax : ℕ) (mixing tol : ℝ)
        (traj : List (Fin n → ℝ)) (stf : SolverState n nk),
        solveIter eigh st0 beta N_tot M0 mu0 nitermax mixing tol = .ok (traj, stf) →
        traj.length ≤ nitermax)
    ∧ solveIterTolDefault = 1e-9 := by
  refine ⟨fun n nk eigh st rho_diag => rfl,
    fun S n step mixing tol fuel s rho_diag acc => solveIterLoop_succ_eq ..,
    fun S n step mixing tol fuel s rho_diag acc traj s' h =>
      solveIterLoop_ok_length step mixing tol fuel s rho_diag acc traj s' h,
    ?_, rfl⟩
  intro n nk eigh st0 beta N_tot M0 mu0 nitermax mixing tol traj stf h
  unfold solveIter at h
  by_cases hmix : 0 ≤ mixing ∧ mixing ≤ 1
  · rw [if_pos hmix] at h
    cases hsetup : solveSetup eigh st0 beta N_tot M0 mu0 with
    | error e =>
      rw [hsetup] at h
      exact absurd h (by simp [Bind.bind, Except.bind])
    | ok p =>
      rw [hsetup] at h
      simp only [Bind.bind, Except.bind] at h
      simpa using solveIterLoop_ok_length (densityMatrixStep eigh) mixing tol
        nitermax p.1 p.2 [] traj stf h
  · rw [if_neg hmix] at h
    exact absurd h (by simp)

/-- Witness for C1: the length bound applied to a concrete zero-fuel run. -/
theorem solveIter_linear_mixing_structure_witness :
    ([] : List (Fin 1 → ℝ)).length ≤ ([] : List (Fin 1 → ℝ)).length + 0 :=
  solveIter_linear_mixing_structure.2.2.1 Unit 1 (fun s r => .ok (s, r)) 1 1 0
    () (fun _ => 0) [] [] () rfl

/-- C4: when the setup phase of `solve_iter` succeeds and the convergence test never succeeds
along the run, the loop exhausts all `nitermax` iterations and still returns the
accumulated trajectory of `rho_diag` iterates normally — no error, no other failure
signal; non-convergence is silent. -/
theorem solveIter_silent_nonconvergence {n nk : ℕ} (eigh : Eigh n)
    (st0 : SolverState n nk) (beta N_tot : ℝ) (M0 : Option (Mat n))
    (mu0 : Option ℝ) (nitermax : ℕ) (mixing tol : ℝ)
    (h0 : 0 ≤ mixing) (h1 : mixing ≤ 1)
    (st1 : SolverState n nk) (rho0 : Fin n → ℝ)
    (hsetup : solveSetup eigh st0 beta N_tot M0 mu0 = .ok (st1, rho0))
    (hrun : RunsFullWithoutConvergence (densityMatrixStep eigh) mixing tol
      nitermax st1 rho0) :
    ∃ traj stf,
      solveIter eigh st0 beta N_tot M0 mu0 nitermax mixing tol = .ok (traj, stf)
      ∧ traj.length = nitermax := by
  obtain ⟨traj, stf, hloop, hlen⟩ :=
    solveIterLoop_of_runsFull (densityMatrixStep eigh) mixing tol nitermax st1 rho0
      [] hrun
  refine ⟨traj, stf, ?_, by simpa using hlen⟩
  unfold solveIter
  rw [if_pos ⟨h0, h1⟩, hsetup]
  simpa [Bind.bind, Except.bind] using hloop

/-- If the bracket shows a (weak) sign change and a root exists, the modelled
`brentq` succeeds. -/
theorem brentq_exists_ok (f : ℝ → ℝ) (a b : ℝ) (hs : ¬ 0 < f a * f b)
    (hroot : ∃ x ∈ Set.Icc a b, f x = 0) : ∃ mu, brentq f a b = .ok mu := by
  unfold brentq
  rw [if_neg hs, dif_pos hroot]
  exact ⟨_, rfl⟩

/-- Success of the chemical-potential update under the same conditions. -/
theorem updateChemicalPotential_exists_ok {n nk : ℕ} (eigh : Eigh n)
    (st : SolverState n nk) (beta N_tot : ℝ)
    (hs : ¬ 0 < chemicalPotentialTarget (fun k => (eigh (st.e_k_MF k)).1) beta N_tot st.mu_min
      * chemicalPotentialTarget (fun k => (eigh (st.e_k_MF k)).1) beta N_tot st.mu_max)
    (hroot : ∃ x ∈ Set.Icc st.mu_min st.mu_max,
      chemicalPotentialTarget (fun k => (eigh (st.e_k_MF k)).1) beta N_tot x = 0) :
    ∃ st', updateChemicalPotential eigh st beta N_tot = .ok st' := by
  obtain ⟨mu, hmu⟩ := brentq_exists_ok _ _ _ hs hroot
  refine ⟨{ st with mu := mu }, ?_⟩
  unfold updateChemicalPotential
  rw [hmu]
  rfl

/-- Evaluation of `solve_setup` when an initial `mu0` is supplied and the
chemical-potential update succeeds. -/
theorem solveSetup_some_eq {n nk : ℕ} (eigh : Eigh n) (st0 : SolverState n nk)
    (beta N_tot m : ℝ) (M0 : Option (Mat n)) (st' : SolverState n nk)
    (h : updateChemicalPotential eigh
        (updateMeanFieldDispersion
          { { { st0 with beta := beta, N_tot := N_tot } with mu := m } with
            M := M0.getD 0 }) beta N_tot = .ok st') :
    solveSetup eigh st0 beta N_tot M0 (some m)
      = .ok (updateDensityMatrix eigh st' beta) := by
  unfold solveSetup
  simp only [Bind.bind, Except.bind, pure, Except.pure]
  rw [h]

/-- Evaluation fact: `fermi(10, 1)` is below half filling. -/
theorem fermi_ten_lt_half : fermi 10 1 < 1/2 := by
  unfold fermi
  rw [one_mul]
  have h := Real.one_lt_exp_iff.mpr (by norm_num : (0:ℝ) < 10)
  rw [div_lt_div_iff (by positivity) (by norm_num)]
  linarith

/-- Evaluation fact: `fermi(-10, 1)` is above half filling. -/
theorem half_lt_fermi_neg_ten : 1/2 < fermi (-10) 1 := by
  unfold fermi
  rw [one_mul]
  have h := Real.exp_lt_one_iff.mpr (by norm_num : (-10:ℝ) < 0)
  rw [div_lt_div_iff (by norm_num) (by positivity)]
  linarith

/-- Evaluation fact: `fermi(0, 1)` is exactly half filling. -/
theorem fermi_zero_eq_half : fermi 0 1 = 1/2 := by
  unfold fermi
  rw [mul_zero, Real.exp_zero]
  norm_num

/-- The concrete chemical-potential target over `stW3` is `fermi(-mu, 1) - 1/2`. -/
theorem stW3_target_eval (mu : ℝ) :
    chemicalPotentialTarget (fun k => (eighTriv (stW3.e_k_MF k)).1) 1 (1/2) mu
      = fermi (-mu) 1 - 1/2 := by
  simp [chemicalPotentialTarget, eighTriv, stW3, updateMeanFieldDispersion, solver0,
    solverInit, dispZero, zero_sub]

/-- Witness for C4: concrete successful setup (`solver0`, `beta = 1`,
`N_tot = 1/2`, `mu0 = 0`) and a zero-iteration run that trivially never converges:
`solve_iter` returns the empty trajectory without error. -/
theorem solveIter_silent_nonconvergence_witness :
    ∃ st1 rho0,
      solveSetup eighTriv solver0 1 (1/2) none (some 0) = .ok (st1, rho0)
      ∧ ∃ traj stf,
          solveIter eighTriv solver0 1 (1/2) none (some 0) 0 (1/2) (1e-9)
            = .ok (traj, stf)
          ∧ traj.length = 0 := by
  have hmin : stW3.mu_min = -10 := rfl
  have hmax : stW3.mu_max = 10 := rfl
  have hs : ¬ 0 < chemicalPotentialTarget
        (fun k => (eighTriv (stW3.e_k_MF k)).1) 1 (1/2) stW3.mu_min
      * chemicalPotentialTarget
        (fun k => (eighTriv (stW3.e_k_MF k)).1) 1 (1/2) stW3.mu_max := by
    rw [hmin, hmax, stW3_target_eval, stW3_target_eval, neg_neg]
    have h1 : (0:ℝ) < fermi (-10) 1 - 1/2 := by
      have := half_lt_fermi_neg_ten; linarith
    have h2 : fermi 10 1 - 1/2 < 0 := by
      have := fermi_ten_lt_half; linarith
    exact not_lt.mpr (mul_nonpos_iff.mpr (Or.inr ⟨le_of_lt h2, le_of_lt h1⟩))
  have hroot : ∃ x ∈ Set.Icc stW3.mu_min stW3.mu_max,
      chemicalPotentialTarget (fun k => (eighTriv (stW3.e_k_MF k)).1) 1 (1/2) x = 0 := by
    refine ⟨0, ?_, ?_⟩
    · rw [hmin, hmax]; constructor <;> norm_num
    · rw [stW3_target_eval, neg_zero, fermi_zero_eq_half]; ring
  obtain ⟨st', hst'⟩ :=
    updateChemicalPotential_exists_ok eighTriv stW3 1 (1/2) hs hroot
  have hsetup := solveSetup_some_eq eighTriv solver0 1 (1/2) 0 none st' hst'
  refine ⟨(updateDensityMatrix eighTriv st' 1).1, (updateDensityMatrix eighTriv st' 1).2,
    ?_, ?_⟩
  · rw [hsetup]
  · exact solveIter_silent_nonconvergence eighTriv solver0 1 (1/2) none (some 0) 0
      (1/2) (1e-9) (by norm_num) (by norm_num) _ _
      (by rw [hsetup]) trivial

/-- Mapping a function over an `Except` preserves exactly the error outcomes. -/
theorem except_map_error_iff {α β ε : Type} (x : Except ε α) (g : α → β) :
    (∃ e, x.map g = .error e) ↔ ∃ e, x = .error e := by
  cases x <;> simp [Except.map]

/-- C3: the chemical-potential update is a bracketed root-find on the configurable
interval `[mu_min, mu_max]`: it reports a fatal error exactly when the target
function shows no sign change over the bracket (the target density is unattainable
there), it never silently returns a value in that case, and on success the returned
`mu` lies in the bracket and satisfies `Σ_k Σ_b f(ε_kb - mu)/N_k = N_tot` (density
matched; `Tr f(ε_k - mu)` is the eigenvalue sum of the k-th block).  The
constructor defaults of the bracket are `[-10, 10]`. -/
theorem updateChemicalPotential_bracketed_rootfind {n nk : ℕ} (eigh : Eigh n)
    (st : SolverState n nk) (beta N_tot : ℝ) (hab : st.mu_min ≤ st.mu_max) :
    ((∃ e, updateChemicalPotential eigh st beta N_tot = .error e) ↔
      0 < chemicalPotentialTarget (fun k => (eigh (st.e_k_MF k)).1) beta N_tot st.mu_min
        * chemicalPotentialTarget (fun k => (eigh (st.e_k_MF k)).1) beta N_tot st.mu_max)
    ∧ (∀ st', updateChemicalPotential eigh st beta N_tot = .ok st' →
        (∑ k : Fin nk, ∑ b : Fin n, fermi ((eigh (st.e_k_MF k)).1 b - st'.mu) beta)
            / (nk : ℝ) = N_tot
        ∧ st'.mu ∈ Set.Icc st.mu_min st.mu_max)
    ∧ (∀ (m mk : ℕ) (e_k : Fin mk → Mat m)
        (U_abcd : Fin m → Fin m → Fin m → Fin m → ℂ),
        (solverInit e_k U_abcd).mu_min = -10 ∧ (solverInit e_k U_abcd).mu_max = 10) := by
  refine ⟨?_, ?_, fun m mk e_k U_abcd => ⟨rfl, rfl⟩⟩
  · unfold updateChemicalPotential
    rw [except_map_error_iff]
    exact brentq_error_iff _ st.mu_min st.mu_max hab
      (continuous_chemicalPotentialTarget (fun k => (eigh (st.e_k_MF k)).1) beta N_tot)
  · intro st' h
    unfold updateChemicalPotential at h
    cases hb : brentq (chemicalPotentialTarget (fun k => (eigh (st.e_k_MF k)).1)
        beta N_tot) st.mu_min st.mu_max with
    | error e => rw [hb] at h; exact absurd h (by simp [Except.map])
    | ok mu =>
      rw [hb] at h
      simp only [Except.map, Except.ok.injEq] at h
      obtain ⟨hmem, hval⟩ := brentq_ok_root _ _ _ _ hb
      have hmu : st'.mu = mu := by rw [← h]
      unfold chemicalPotentialTarget at hval
      constructor
      · rw [hmu]
        linarith
      · rw [hmu]; exact hmem

/-- Witness for C3: at the concrete state `stW3` (bracket `[-10, 10]`) the
error-iff-no-sign-change characterisation holds. -/
theorem updateChemicalPotential_bracketed_rootfind_witness :
    (∃ e, updateChemicalPotential eighTriv stW3 1 (1/2) = .error e) ↔
      0 < chemicalPotentialTarget (fun k => (eighTriv (stW3.e_k_MF k)).1) 1 (1/2)
          stW3.mu_min
        * chemicalPotentialTarget (fun k => (eighTriv (stW3.e_k_MF k)).1) 1 (1/2)
          stW3.mu_max :=
  (updateChemicalPotential_bracketed_rootfind eighTriv stW3 1 (1/2)
    (by rw [show stW3.mu_min = -10 from rfl, show stW3.mu_max = 10 from rfl]
        norm_num)).1

/-- An exactly diagonal operator passes the (tolerance-based) probe check. -/
theorem checkOp_of_isDiag {n : ℕ} (op : Mat n) (h : op.IsDiag) : CheckOp op := by
  intro a b
  by_cases hab : a = b
  · subst hab
    rw [Matrix.sub_apply, Matrix.diagonal_apply_eq, sub_self]
    rw [map_zero]
    norm_num
  · rw [Matrix.sub_apply, Matrix.diagonal_apply_ne _ hab, h hab, sub_zero, map_zero]
    norm_num

/-- C7 (amended): `bare_response` and `response` check both probe operators before
use, but the check is the numpy 7-decimal almost-equality: a probe fails exactly when
some entry of its off-diagonal part reaches magnitude `1.5e-7`; any probe within
that tolerance — in particular every exactly diagonal probe of the correct shape —
passes, and the methods return the double contraction against `chi0_ab` / `chi_ab`
without error. -/
theorem response_checks_within_numpy_tolerance :
    ∀ (n nk : ℕ) (st : HartreeResponseState n nk) (op1 op2 : Mat n),
      (op1.IsDiag → op2.IsDiag →
        bareResponse st op1 op2
            = .ok (∑ a : Fin n, ∑ b : Fin n, op1 a a * st.chi0_ab a b * op2 b b)
          ∧ response st op1 op2
            = .ok (∑ a : Fin n, ∑ b : Fin n, op1 a a * st.chi_ab a b * op2 b b))
      ∧ ((¬ CheckOp op1 ∨ ¬ CheckOp op2) →
        bareResponse st op1 op2 = .error checkOpError
          ∧ response st op1 op2 = .error checkOpError) := by
  intro n nk st op1 op2
  constructor
  · intro h1 h2
    have hc : CheckOp op1 ∧ CheckOp op2 :=
      ⟨checkOp_of_isDiag _ h1, checkOp_of_isDiag _ h2⟩
    unfold bareResponse response
    rw [if_pos hc, if_pos hc]
    exact ⟨rfl, rfl⟩
  · intro h
    have hc : ¬ (CheckOp op1 ∧ CheckOp op2) := by tauto
    unfold bareResponse response
    rw [if_neg hc, if_neg hc]
    exact ⟨rfl, rfl⟩

/-- Counterexample to C7 as stated: `opBad` is NOT diagonal (its `(0,1)` entry is
`1e-8 ≠ 0`), yet `bare_response` accepts it and returns a value, because the numpy
check `assert_almost_equal(..., decimal=7)` only resolves deviations of at least
`1.5e-7`. -/
theorem checkOp_tolerance_counterexample :
    ¬ opBad.IsDiag ∧ ∃ c, bareResponse respState2 opBad opBad = .ok c := by
  constructor
  · intro h
    have h01 : opBad 0 1 = 0 := h (show (0 : Fin 2) ≠ 1 by decide)
    rw [show opBad 0 1 = ((1e-8 : ℝ) : ℂ) from rfl] at h01
    rw [Complex.ofReal_eq_zero] at h01
    norm_num at h01
  · have hc : CheckOp opBad := by
      intro a b
      fin_cases a <;> fin_cases b <;>
        simp [opBad, Matrix.sub_apply, Matrix.diagonal_apply, Matrix.of_apply] <;>
        norm_num [Complex.abs_ofReal, abs_of_pos]
    unfold bareResponse
    rw [if_pos ⟨hc, hc⟩]
    exact ⟨_, rfl⟩

/-- Witness for C7 (amended): identity probes pass and contract against `chi0_ab`;
a probe with a unit off-diagonal entry is rejected. -/
theorem response_checks_within_numpy_tolerance_witness :
    (bareResponse respState2 1 1
        = .ok (∑ a : Fin 2, ∑ b : Fin 2,
            (1 : Mat 2) a a * respState2.chi0_ab a b * (1 : Mat 2) b b))
    ∧ response respState2 (Matrix.stdBasisMatrix 0 1 1) 1 = .error checkOpError := by
  constructor
  · exact ((response_checks_within_numpy_tolerance 2 1 respState2 1 1).1
      Matrix.isDiag_one Matrix.isDiag_one).1
  · refine ((response_checks_within_numpy_tolerance 2 1 respState2
      (Matrix.stdBasisMatrix 0 1 1) 1).2 (Or.inl ?_)).2
    intro hC
    have h01 := hC 0 1
    rw [Matrix.sub_apply, Matrix.diagonal_apply_ne _ (by decide),
      Matrix.StdBasisMatrix.apply_same, sub_zero] at h01
    rw [map_one] at h01
    norm_num at h01

/-- Lemma: `chi0_op` is the NEGATIVE of the symmetric difference quotient of the
k-averaged density matrix (`chi0 = -drho` in the source, line 122). -/
theorem chi0_op_eq_neg_symmDiffQuotient {n nk : ℕ} (eigh : Eigh n)
    (e_k : Fin nk → Mat n) (beta : ℝ) (op : Mat n) (eps : ℝ) :
    chi0_op eigh e_k beta op eps = - symmDiffQuotient eigh e_k beta op eps := by
  unfold chi0_op symmDiffQuotient rhoAvg
  rw [neg_inj, ← smul_sub, ← Finset.sum_sub_distrib,
    smul_comm ((((2 * eps : ℝ)) : ℂ))⁻¹ (((nk : ℂ))⁻¹), Finset.smul_sum]
  simp [Finset.smul_sum]
  rw [← Finset.sum_sub_distrib, Finset.smul_sum, Finset.smul_sum]

/-- The Fermi function at `beta = 1` is strictly smaller at energy `1` than at
energy `-1`. -/
theorem fermi_one_lt_fermi_neg_one : fermi 1 1 < fermi (-1) 1 := by
  unfold fermi
  rw [mul_one, mul_neg, mul_one]
  have h := Real.exp_lt_exp.mpr (show (-1:ℝ) < 1 by norm_num)
  rw [div_lt_div_iff (by positivity) (by positivity)]
  linarith

/-- C8 (amended): every entry of the diagonal-response tensor equals MINUS the
symmetric difference quotient `(ρ(+ε) − ρ(−ε))/(2ε)` of the k-averaged density
matrix under perturbation by the diagonal projector onto orbital `a`, evaluated at
diagonal entry `b` (the source returns `chi0 = -drho`). -/
theorem chi0_mat_entry_is_neg_diff_quotient {n nk : ℕ} (eigh : Eigh n)
    (e_k : Fin nk → Mat n) (beta eps : ℝ) (a b : Fin n) :
    chi0_mat eigh e_k beta eps a b
      = - symmDiffQuotient eigh e_k beta (Matrix.stdBasisMatrix a a 1) eps b b := by
  show chi0_op eigh e_k beta (Matrix.stdBasisMatrix a a 1) eps b b = _
  rw [chi0_op_eq_neg_symmDiffQuotient, Matrix.neg_apply]

/-- The concrete symmetric difference quotient at the zero 1×1 dispersion,
`beta = eps = 1`, equals `(fermi(1) - fermi(-1))/2`. -/
theorem symmDiffQuotient_concrete_eval :
    symmDiffQuotient eighTriv dispZero 1 (Matrix.stdBasisMatrix 0 0 1) 1 0 0
      = ((2 : ℝ) : ℂ)⁻¹ * (((fermi 1 1 : ℝ) : ℂ) - ((fermi (-1) 1 : ℝ) : ℂ)) := by
  simp [symmDiffQuotient, rhoAvg, fermiBlock, eighTriv, dispZero,
    Matrix.conjTranspose_one, Matrix.smul_apply, Matrix.sub_apply,
    Matrix.add_apply, Matrix.zero_apply, Matrix.StdBasisMatrix.apply_same,
    Matrix.diagonal_apply_eq, Fin.sum_univ_one, smul_eq_mul]

/-- Counterexample to C8 as stated: at the zero 1×1 dispersion with
`beta = eps = 1`, the `chi0_ab` entry does NOT equal the symmetric difference
quotient — the code returns its negative, and here the quotient is nonzero. -/
theorem chi0_mat_sign_counterexample :
    chi0_mat eighTriv dispZero 1 1 0 0
      ≠ symmDiffQuotient eighTriv dispZero 1 (Matrix.stdBasisMatrix 0 0 1) 1 0 0 := by
  have hq0 : symmDiffQuotient eighTriv dispZero 1 (Matrix.stdBasisMatrix 0 0 1) 1 0 0
      ≠ 0 := by
    rw [symmDiffQuotient_concrete_eval]
    refine mul_ne_zero (inv_ne_zero (by norm_num)) (sub_ne_zero.mpr ?_)
    rw [ne_eq, Complex.ofReal_inj]
    exact ne_of_lt fermi_one_lt_fermi_neg_one
  rw [show chi0_mat eighTriv dispZero 1 1 0 0
      = chi0_op eighTriv dispZero 1 (Matrix.stdBasisMatrix 0 0 1) 1 0 0 from rfl,
    chi0_op_eq_neg_symmDiffQuotient, Matrix.neg_apply]
  exact (neg_ne_self ℂ ℂ).mpr hq0

/-- The Fermi function is nonnegative (for every energy and every `beta`). -/
theorem fermi_nonneg (e beta : ℝ) : 0 ≤ fermi e beta := by
  unfold fermi
  positivity

/-- The Fermi function is at most one (for every energy and every `beta`). -/
theorem fermi_le_one (e beta : ℝ) : fermi e beta ≤ 1 := by
  unfold fermi
  rw [div_le_one (by positivity)]
  have := Real.exp_pos (beta * e)
  linarith

/-- A nonnegative real multiple of a positive semidefinite complex matrix is
positive semidefinite. -/
theorem posSemidef_real_smul {n : ℕ} {r : ℝ} (hr : 0 ≤ r) {A : Mat n}
    (hA : A.PosSemidef) : (((r : ℂ)) • A).PosSemidef := by
  constructor
  · unfold Matrix.IsHermitian
    rw [Matrix.conjTranspose_smul, hA.1.eq]
    congr 1
    rw [Complex.star_def, Complex.conj_ofReal]
  · intro x
    rw [Matrix.smul_mulVec_assoc, Matrix.dotProduct_smul, smul_eq_mul]
    exact mul_nonneg (Complex.zero_le_real.mpr hr) (hA.2 x)

/-- A finite sum of positive semidefinite matrices is positive semidefinite. -/
theorem posSemidef_sum {n : ℕ} {ι : Type} (s : Finset ι) (A : ι → Mat n)
    (h : ∀ i ∈ s, (A i).PosSemidef) : (∑ i ∈ s, A i).PosSemidef :=
  Finset.sum_induction A Matrix.PosSemidef (fun _ _ ha hb => ha.add hb)
    Matrix.PosSemidef.zero h

/-- The eigenvalues of a matrix `A` with both `A` and `1 - A` positive semidefinite
lie in `[0, 1]`. -/
theorem eigenvalues_mem_Icc_of_posSemidef {n : ℕ} {A : Mat n} (hA : A.PosSemidef)
    (h1 : (1 - A).PosSemidef) (i : Fin n) :
    hA.1.eigenvalues i ∈ Set.Icc (0 : ℝ) 1 := by
  refine ⟨hA.eigenvalues_nonneg i, ?_⟩
  have hv := hA.1.eigenvalues_eq i
  set v : Fin n → ℂ := ⇑(hA.1.eigenvectorBasis i) with hvdef
  have hnorm : Matrix.dotProduct (star v) v = 1 := by
    have hinner := EuclideanSpace.inner_eq_star_dotProduct (𝕜 := ℂ)
      (hA.1.eigenvectorBasis i) (hA.1.eigenvectorBasis i)
    rw [inner_self_eq_norm_sq_to_K, hA.1.eigenvectorBasis.orthonormal.1 i] at hinner
    simpa using hinner.symm
  have hq := h1.2 v
  rw [Matrix.sub_mulVec, Matrix.one_mulVec, Matrix.dotProduct_sub, hnorm] at hq
  have hre := (Complex.le_def.mp hq).1
  simp only [Complex.zero_re, Complex.sub_re, Complex.one_re] at hre
  rw [hv]
  show (Matrix.dotProduct (star v) (A.mulVec v)).re ≤ 1
  linarith

/-- Trace of a k-average of unitary conjugates of real diagonal matrices. -/
theorem trace_avg_conj_diag {n nk : ℕ} (V : Fin nk → Mat n)
    (g : Fin nk → Fin n → ℝ) (hV : ∀ k, V k ∈ Matrix.unitaryGroup (Fin n) ℂ) :
    (((nk : ℂ))⁻¹ • ∑ k : Fin nk,
        V k * Matrix.diagonal (fun b => ((g k b : ℝ) : ℂ)) * (V k)ᴴ).trace
      = ((((nk : ℝ))⁻¹ * ∑ k : Fin nk, ∑ b : Fin n, g k b : ℝ) : ℂ) := by
  rw [Matrix.trace_smul, Matrix.trace_sum]
  have hterm : ∀ k, (V k * Matrix.diagonal (fun b => ((g k b : ℝ) : ℂ)) * (V k)ᴴ).trace
      = ∑ b : Fin n, ((g k b : ℝ) : ℂ) := by
    intro k
    rw [Matrix.trace_mul_cycle]
    have hVV : (V k)ᴴ * V k = 1 := by
      have h := Matrix.mem_unitaryGroup_iff'.mp (hV k)
      rwa [Matrix.star_eq_conjTranspose] at h
    rw [hVV, one_mul, Matrix.trace_diagonal]
  rw [Finset.sum_congr rfl fun k _ => hterm k, smul_eq_mul]
  push_cast
  ring

/-- Master lemma: the k-average of unitary conjugates of real diagonal matrices
with diagonal entries in `[0, 1]` (a Fermi-occupied spectral reconstruction) has
all the claimed density-matrix properties. -/
theorem avg_conj_fermi_props {n nk : ℕ} (hnk : 0 < nk) (V : Fin nk → Mat n)
    (g : Fin nk → Fin n → ℝ)
    (hV : ∀ k, V k ∈ Matrix.unitaryGroup (Fin n) ℂ)
    (hg0 : ∀ k b, 0 ≤ g k b) (hg1 : ∀ k b, g k b ≤ 1) :
    DensityMatrixProps
      (((nk : ℂ))⁻¹ • ∑ k : Fin nk,
        V k * Matrix.diagonal (fun b => ((g k b : ℝ) : ℂ)) * (V k)ᴴ) := by
  have hnkR : (0 : ℝ) < (nk : ℝ) := by exact_mod_cast hnk
  have hnkC : ((nk : ℕ) : ℂ) ≠ 0 := Nat.cast_ne_zero.mpr hnk.ne'
  have hcast : ((nk : ℂ))⁻¹ = ((((nk : ℝ))⁻¹ : ℝ) : ℂ) := by push_cast; ring
  set S := ∑ k : Fin nk, V k * Matrix.diagonal (fun b => ((g k b : ℝ) : ℂ)) * (V k)ᴴ
    with hS
  have hpsd : (((nk : ℂ))⁻¹ • S).PosSemidef := by
    rw [hcast]
    refine posSemidef_real_smul (by positivity) (posSemidef_sum _ _ fun k _ => ?_)
    exact (Matrix.PosSemidef.diagonal
      (Pi.le_def.mpr fun b => Complex.zero_le_real.mpr (hg0 k b))).mul_mul_conjTranspose_same
      (V k)
  have hterm : ∀ k : Fin nk,
      V k * Matrix.diagonal (fun b => ((1 - g k b : ℝ) : ℂ)) * (V k)ᴴ
        = 1 - V k * Matrix.diagonal (fun b => ((g k b : ℝ) : ℂ)) * (V k)ᴴ := by
    intro k
    have hVV : V k * (V k)ᴴ = 1 := by
      have h := Matrix.mem_unitaryGroup_iff.mp (hV k)
      rwa [Matrix.star_eq_conjTranspose] at h
    have hdiag : Matrix.diagonal (fun b => ((1 - g k b : ℝ) : ℂ))
        = 1 - Matrix.diagonal (fun b => ((g k b : ℝ) : ℂ)) := by
      have hfun : (fun b => ((1 - g k b : ℝ) : ℂ))
          = fun b : Fin n => (1 : ℂ) - ((g k b : ℝ) : ℂ) := by
        funext b
        push_cast
        ring
      rw [hfun, ← Matrix.diagonal_sub, Matrix.diagonal_one]
    rw [hdiag, mul_sub, sub_mul, mul_one, hVV]
  have hcompl : 1 - ((nk : ℂ))⁻¹ • S
      = ((nk : ℂ))⁻¹ • ∑ k : Fin nk,
          V k * Matrix.diagonal (fun b => ((1 - g k b : ℝ) : ℂ)) * (V k)ᴴ := by
    have hsum : ∑ k : Fin nk,
        V k * Matrix.diagonal (fun b => ((1 - g k b : ℝ) : ℂ)) * (V k)ᴴ
          = ((nk : ℕ) : ℂ) • (1 : Mat n) - S := by
      rw [Finset.sum_congr rfl fun k _ => hterm k, Finset.sum_sub_distrib,
        Finset.sum_const, Finset.card_univ, Fintype.card_fin,
        Nat.cast_smul_eq_nsmul]
    rw [hsum, smul_sub, smul_smul, inv_mul_cancel₀ hnkC, one_smul]
  have h1psd : (1 - ((nk : ℂ))⁻¹ • S).PosSemidef := by
    rw [hcompl, hcast]
    refine posSemidef_real_smul (by positivity) (posSemidef_sum _ _ fun k _ => ?_)
    refine (Matrix.PosSemidef.diagonal
      (Pi.le_def.mpr fun b => Complex.zero_le_real.mpr ?_)).mul_mul_conjTranspose_same (V k)
    have := hg1 k b
    linarith
  have htr := trace_avg_conj_diag V g hV
  refine ⟨hpsd.1, ⟨hpsd.1, fun i => eigenvalues_mem_Icc_of_posSemidef hpsd h1psd i⟩,
    ?_, ?_, ?_⟩
  · rw [htr, Complex.ofReal_im]
  · rw [htr, Complex.ofReal_re]
    have hsum0 : (0 : ℝ) ≤ ∑ k : Fin nk, ∑ b : Fin n, g k b :=
      Finset.sum_nonneg fun k _ => Finset.sum_nonneg fun b _ => hg0 k b
    positivity
  · rw [htr, Complex.ofReal_re]
    have hsum1 : ∑ k : Fin nk, ∑ b : Fin n, g k b
        ≤ ∑ k : Fin nk, ∑ b : Fin n, (1 : ℝ) :=
      Finset.sum_le_sum fun k _ => Finset.sum_le_sum fun b _ => hg1 k b
    have hcard : ∑ k : Fin nk, ∑ b : Fin n, (1 : ℝ) = (nk : ℝ) * (n : ℝ) := by
      simp [Finset.sum_const, Finset.card_univ]
    have hle : ((nk : ℝ))⁻¹ * ∑ k : Fin nk, ∑ b : Fin n, g k b
        ≤ ((nk : ℝ))⁻¹ * ((nk : ℝ) * (n : ℝ)) := by
      refine mul_le_mul_of_nonneg_left ?_ (by positivity)
      rw [← hcard]
      exact hsum1
    calc ((nk : ℝ))⁻¹ * ∑ k : Fin nk, ∑ b : Fin n, g k b
        ≤ ((nk : ℝ))⁻¹ * ((nk : ℝ) * (n : ℝ)) := hle
      _ = (n : ℝ) := by
          field_simp

/-- C2: for every dispersion whose per-k blocks are Hermitian (equivalently, whose
blocks the `eigh` oracle validly decomposes — the `numpy.linalg.eigh` contract), every
`beta > 0`, every mean field `M` and every `mu`, the density-matrix evaluator
`rho_mf` — and equally the density-matrix update of the solver — returns a Hermitian
matrix whose eigenvalues lie in `[0, 1]` and whose (real) trace lies in
`[0, norb]`. -/
theorem rho_mf_density_matrix_props {n nk : ℕ} (eigh : Eigh n)
    (e_k : Fin nk → Mat n) (beta : ℝ) (M : Mat n) (mu : ℝ) (st : SolverState n nk)
    (hnk : 0 < nk) (hbeta : 0 < beta)
    (hvalid1 : ∀ k, EighValid (e_k k + M - (mu : ℂ) • 1)
      (eigh (e_k k + M - (mu : ℂ) • 1)))
    (hvalid2 : ∀ k, EighValid (st.e_k_MF k) (eigh (st.e_k_MF k))) :
    DensityMatrixProps (rho_mf eigh e_k beta M mu)
    ∧ DensityMatrixProps ((updateDensityMatrix eigh st beta).1.rho) := by
  constructor
  · exact avg_conj_fermi_props hnk (fun k => (eigh (e_k k + M - (mu : ℂ) • 1)).2)
      (fun k b => fermi ((eigh (e_k k + M - (mu : ℂ) • 1)).1 b) beta)
      (fun k => (hvalid1 k).1) (fun k b => fermi_nonneg _ _)
      (fun k b => fermi_le_one _ _)
  · exact avg_conj_fermi_props hnk (fun k => (eigh (st.e_k_MF k)).2)
      (fun k b => fermi ((eigh (st.e_k_MF k)).1 b - st.mu) beta)
      (fun k => (hvalid2 k).1) (fun k b => fermi_nonneg _ _)
      (fun k b => fermi_le_one _ _)

/-- Witness for C2: the concrete zero dispersion with the trivial 1×1 oracle. -/
theorem rho_mf_density_matrix_props_witness :
    DensityMatrixProps (rho_mf eighTriv dispZero 1 0 0)
    ∧ DensityMatrixProps ((updateDensityMatrix eighTriv solver0 1).1.rho) := by
  refine rho_mf_density_matrix_props eighTriv dispZero 1 0 0 solver0
    (by norm_num) (by norm_num) ?_ ?_
  · intro k
    refine ⟨one_mem _, ?_⟩
    show _ = (1 : Mat 1) * _ * (1 : Mat 1)ᴴ
    rw [Matrix.conjTranspose_one, Matrix.one_mul, Matrix.mul_one]
    ext i j
    fin_cases i
    fin_cases j
    simp [eighTriv, dispZero]
  · intro k
    refine ⟨one_mem _, ?_⟩
    show _ = (1 : Mat 1) * _ * (1 : Mat 1)ᴴ
    rw [Matrix.conjTranspose_one, Matrix.one_mul, Matrix.mul_one]
    ext i j
    fin_cases i
    fin_cases j
    simp [eighTriv, solver0, solverInit, dispZero]

end HartreeMF
